import Mathlib

/-!
# Verification of the `lc` line-counting utility (src/main.rs)

This file gives a shallow embedding of the traversal, aggregation,
classification and formatting logic of the `lc` command-line utility and
proves the specification claims about it.

Modelling conventions:
* A directory tree is an `FsEntry`.  A file carries its content as the
  already-lossily-decoded text (`List Char`): the source reads the raw bytes
  and decodes with `String::from_utf8_lossy`, and every strategy counts the
  lines and bytes of that decoded text, so the decoded text is the only
  observable.  `badFile` models a file whose `fs::metadata`/`fs::read` call
  fails; `badDir` models a directory whose `fs::read_dir` call fails.
* Fallible Rust functions returning `io::Result` are modelled with the
  `Outcome` type; `Outcome.panic` models a Rust panic (an `expect` or an
  `unwrap` of a `join` on a panicked thread).
* Counters are `u128` in the source; totals of a tree are far below `2^128`,
  and the source can only add (never subtract), so they are modelled as `Nat`.
* Thread interleaving only affects the order of mutex increments, and
  addition is commutative, so each concurrent strategy is modelled by the
  deterministic function computing the final accumulator contents; spawn
  order and join order follow the source text.
-/

namespace LC

/-- Number of lines of a decoded text, as computed by Rust's
`str::lines().count()`: the number of newline-terminated segments, where a
final segment without a trailing newline also counts (and `\r\n` handling
only affects segment contents, never the count). -/
def linesCount (s : List Char) : Nat :=
  if s.isEmpty then 0
  else s.count '\n' + (if s.getLast? = some '\n' then 0 else 1)

/-- Byte length of the decoded text, as computed by Rust's
`content.as_bytes().len()` on the lossily decoded `String`
(UTF-8 byte length). -/
def utf8Len (s : List Char) : Nat :=
  (s.map Char.utf8Size).sum

/-- A directory tree.
* `file name content`: a regular, readable file holding the given decoded
  text.
* `badFile name`: a regular file for which `fs::metadata` or `fs::read`
  fails (the `?` operator propagates an `Err`).
* `dir name entries`: a readable directory with the given listing,
  in filesystem listing order.
* `badDir name`: a directory for which `fs::read_dir` fails. -/
inductive FsEntry : Type where
  | file (name : String) (content : List Char) : FsEntry
  | badFile (name : String) : FsEntry
  | dir (name : String) (entries : List FsEntry) : FsEntry
  | badDir (name : String) : FsEntry
deriving Repr

/-- The file name of an entry (the final path component). -/
def FsEntry.name : FsEntry → String
  | .file n _ => n
  | .badFile n => n
  | .dir n _ => n
  | .badDir n => n

/-- Rust's `entry.is_file()`: true exactly for regular files (a `badFile`
exists and is a regular file; only its read fails). -/
def FsEntry.isFile : FsEntry → Bool
  | .file _ _ => true
  | .badFile _ => true
  | .dir _ _ => false
  | .badDir _ => false

mutual

/-- An entry is fully readable: no `badFile`/`badDir` anywhere in it. -/
def allReadable : FsEntry → Bool
  | .file _ _ => true
  | .badFile _ => false
  | .badDir _ => false
  | .dir _ entries => allReadableList entries

/-- All entries of a listing are fully readable. -/
def allReadableList : List FsEntry → Bool
  | [] => true
  | e :: rest => allReadable e && allReadableList rest

end

/-- Componentwise sum of two (lines, bytes) pairs. -/
def addPair (p q : Nat × Nat) : Nat × Nat :=
  (p.1 + q.1, p.2 + q.2)

mutual

/-- Specification-level total of a tree: a file contributes
(lines of its decoded content, bytes of its decoded content), a directory
the sum over its listing; unreadable entries contribute nothing (they are
excluded by the readability hypotheses of the theorems that use `total`). -/
def total : FsEntry → Nat × Nat
  | .file _ c => (linesCount c, utf8Len c)
  | .badFile _ => (0, 0)
  | .badDir _ => (0, 0)
  | .dir _ entries => totalList entries

/-- Sum of `total` over a listing. -/
def totalList : List FsEntry → Nat × Nat
  | [] => (0, 0)
  | e :: rest => addPair (total e) (totalList rest)

end

/-- Result of running one traversal call.
`ok` is a normal return, `err` an `Err` propagated by `?`, and `panic` a
Rust panic (from `.expect(..)` on `read_dir`, or from `handle.join().unwrap()`
when a spawned child panicked). -/
inductive Outcome (α : Type) : Type where
  | ok (val : α) : Outcome α
  | err : Outcome α
  | panic : Outcome α
deriving DecidableEq, Repr

/-- Body of the Sequential Walker `linecount` (src/main.rs:196-233) on the
listing of a readable directory, processed in listing order.
* A regular file adds its line count, and (under the byte toggle) its byte
  count, to the local accumulators.
* A `badFile` makes `fs::metadata(..)?` / `fs::read(..)?` propagate `Err`
  out of the whole call (entries already processed are discarded with the
  local accumulators; diagnostics already printed before the failure are a
  side effect outside the returned value and are not modelled).
* A subdirectory is recursed into; an `Err` from the recursion is caught by
  the `match`, the failing path is pushed on the diagnostic stream and the
  traversal continues with the remaining siblings (the subtree contributes
  nothing).  Recursing into a `badDir` yields `Err` (its `read_dir` fails).
The returned diagnostics are the logged failing paths in emission order.
`Outcome.panic` is never produced: this strategy has no `expect`/`unwrap`
on a fallible traversal step. -/
def linecountEntries (bt : Bool) : List FsEntry → Outcome ((Nat × Nat) × List String)
  | [] => .ok ((0, 0), [])
  | .file _ c :: rest =>
    match linecountEntries bt rest with
    | .ok ((l, b), logs) => .ok ((linesCount c + l, (bif bt then utf8Len c else 0) + b), logs)
    | o => o
  | .badFile _ :: _ => .err
  | .badDir n :: rest =>
    match linecountEntries bt rest with
    | .ok (p, logs) => .ok (p, n :: logs)
    | o => o
  | .dir n sub :: rest =>
    match linecountEntries bt rest with
    | .err => .err
    | .panic => .panic
    | .ok ((l, b), logs) =>
      match linecountEntries bt sub with
      | .ok ((cl, cb), clogs) => .ok ((cl + l, cb + b), clogs ++ logs)
      | _ => .ok ((l, b), n :: logs)

/-- The Sequential Walker `linecount` (src/main.rs:196-233) called on a tree
root: `fs::read_dir` at the root succeeds only on a readable directory, and a
failure there propagates `Err` to the caller via `?`.  The inert
`ignore_toggle` parameter of the source is unused by the source body and is
omitted.  Returns the (lines, bytes) total and the diagnostic stream. -/
def linecount (e : FsEntry) (byteToggle : Bool) : Outcome ((Nat × Nat) × List String) :=
  match e with
  | .dir _ entries => linecountEntries byteToggle entries
  | _ => .err

/-- Body of the Concurrent Aggregator `linecount_async` (src/main.rs:235-282)
on the listing of a readable directory.  The shared mutex-guarded
accumulators receive commutative additions only, so the model computes the
final accumulator contents directly, following the source text order:
* files are processed synchronously in listing order; a `badFile` makes
  `fs::metadata(..)?` / `fs::read(..)?` return `Err` from the whole call
  before the join loop is reached (so an `Err` wins over any child panic);
* each subdirectory spawns a task recursing into it; the task adds the
  child's total only on `Ok` (an `Err` child is silently dropped), while a
  panicking child (its `read_dir` `.expect(..)` failed) makes the parent's
  `handle.join().unwrap()` panic at the join barrier. -/
def asyncList : List FsEntry → Outcome (Nat × Nat)
  | [] => .ok (0, 0)
  | .file _ c :: rest =>
    match asyncList rest with
    | .ok (l, b) => .ok (linesCount c + l, utf8Len c + b)
    | o => o
  | .badFile _ :: _ => .err
  | .dir _ sub :: rest =>
    match asyncList rest with
    | .err => .err
    | .panic => .panic
    | .ok (l, b) =>
      match asyncList sub with
      | .ok (cl, cb) => .ok (cl + l, cb + b)
      | .err => .ok (l, b)
      | .panic => .panic
  | .badDir _ :: rest =>
    match asyncList rest with
    | .err => .err
    | _ => .panic

/-- The Concurrent Aggregator `linecount_async` (src/main.rs:235-282) called
on a tree root.  Its directory listing is taken with
`fs::read_dir(..).expect("Failed to read directory")`, so a root that is not
a readable directory PANICS (it does not return `Err`).  The inert
`ignore_toggle` parameter is omitted as in `linecount`. -/
def linecount_async : FsEntry → Outcome (Nat × Nat)
  | .dir _ entries => asyncList entries
  | _ => .panic

/-- The constant `FILENAME_RENDER_LIMIT` (src/main.rs:14). -/
def FILENAME_RENDER_LIMIT : Nat := 60

/-- Rust byte slice `&filename[..budget]` on a string given as decoded
characters: `some` of the chars making up exactly `budget` bytes when byte
offset `budget` falls on a character boundary, `none` (a Rust panic) when it
falls inside a multi-byte character (or past the end). -/
def byteTruncate : Nat → List Char → Option (List Char)
  | 0, _ => some []
  | _ + 1, [] => none
  | b + 1, c :: cs =>
    if c.utf8Size ≤ b + 1 then
      (byteTruncate (b + 1 - c.utf8Size) cs).map (c :: ·)
    else none

/-- Filename rendering of the visual walkers (src/main.rs:362-366 and
493-497): when `filename.len()` (the UTF-8 byte length) exceeds
`FILENAME_RENDER_LIMIT`, the name is replaced by
`format!("{}...", &filename[..FILENAME_RENDER_LIMIT])`; `none` models the
panic of that byte slice on a non-boundary offset. -/
def renderName (name : String) : Option String :=
  if utf8Len name.data > FILENAME_RENDER_LIMIT then
    (byteTruncate FILENAME_RENDER_LIMIT name.data).map (fun l => String.mk l ++ "...")
  else some name

/-- One line of visual output.  `header ind n` is the directory header line
printed on entering directory `n` with `indent_amount = ind`; `fileLine ind
conn n l b` is the per-file line printed with `indent_amount = ind`,
connector glyph `conn`, rendered (truncated) name `n` and the file's line
and byte counts.  Color codes and the fixed-width padding characters are
presentation of these fields and are not modelled separately. -/
inductive RLine : Type where
  | header (indent : Nat) (name : String) : RLine
  | fileLine (indent : Nat) (connector : Char) (name : String)
      (lines : Nat) (bytes : Nat) : RLine
deriving DecidableEq, Repr

/-- Insert an entry into a name-sorted list, after all entries of strictly
smaller or equal name (names inside one directory are distinct, so the
tie-break is irrelevant). -/
def insertByName (e : FsEntry) : List FsEntry → List FsEntry
  | [] => [e]
  | x :: xs => if e.name < x.name then e :: x :: xs else x :: insertByName e xs

/-- Models `Vec::sort` of the source on a vector of sibling paths: all paths share
the same parent, so `PathBuf` ordering (componentwise, byte order of the
final component) is exactly the character order of the file names, which
UTF-8 preserves.  Modelled as insertion sort. -/
def sortEntries : List FsEntry → List FsEntry
  | [] => []
  | e :: rest => insertByName e (sortEntries rest)

/-- Fact that `insertByName` preserves list `sizeOf`.  Stated as a definition because
it is consumed by the termination measures of the walkers below. -/
def insertByName_sizeOf : ∀ (e : FsEntry) (l : List FsEntry),
    sizeOf (insertByName e l) = 1 + sizeOf e + sizeOf l := by
  intro e l
  induction l with
  | nil => simp [insertByName]
  | cons x xs ih =>
    simp only [insertByName]
    split
    · simp
    · simp only [List.cons.sizeOf_spec, ih]
      omega

/-- Fact that `sortEntries` preserves list `sizeOf` (it permutes the list). -/
def sortEntries_sizeOf : ∀ l : List FsEntry, sizeOf (sortEntries l) = sizeOf l := by
  intro l
  induction l with
  | nil => rfl
  | cons e rest ih =>
    simp only [sortEntries, insertByName_sizeOf, ih, List.cons.sizeOf_spec]

/-- The two complementary filters of the files/dirs partition cover the
`sizeOf` of the original listing. -/
def filterPartition_sizeOf : ∀ l : List FsEntry,
    sizeOf (l.filter FsEntry.isFile) + sizeOf (l.filter fun e => !e.isFile)
      = sizeOf l + 1 := by
  intro l
  induction l with
  | nil => rfl
  | cons e rest ih =>
    by_cases h : e.isFile <;> simp [List.filter, h] <;> omega

/-- The `sizeOf` of an appended list. -/
def append_sizeOf : ∀ l₁ l₂ : List FsEntry,
    sizeOf (l₁ ++ l₂) + 1 = sizeOf l₁ + sizeOf l₂ := by
  intro l₁ l₂
  induction l₁ with
  | nil => simp; omega
  | cons e rest ih =>
    simp only [List.cons_append, List.cons.sizeOf_spec] at ih ⊢
    omega

/-- The `sizeOf` of the chained sorted files/dirs partition of a listing equals
the `sizeOf` of the listing; this is the termination measure fact for the
visual walkers. -/
def sortedChain_sizeOf : ∀ l : List FsEntry,
    sizeOf (sortEntries (l.filter FsEntry.isFile)
        ++ sortEntries (l.filter fun e => !e.isFile))
      = sizeOf l := by
  intro l
  have h1 := sortEntries_sizeOf (l.filter FsEntry.isFile)
  have h2 := sortEntries_sizeOf (l.filter fun e => !e.isFile)
  have h3 := append_sizeOf (sortEntries (l.filter FsEntry.isFile))
    (sortEntries (l.filter fun e => !e.isFile))
  have h4 := filterPartition_sizeOf l
  omega

mutual

/-- The Concurrent Visual Walker `linecount_visual_async`
(src/main.rs:413-552) called on a directory: the listing is materialized
with `read_dir(..).expect(..)` (panic when unreadable or not a directory),
partitioned into files and non-files by `entry.is_file()`, each group is
sorted, and the chained `files ++ dirs` sequence is processed by
`visualList`.  Totals through the shared mutex accumulators are modelled as
in `linecount_async`; per-file printing matters to the result only through
the possible panic of the filename truncation. -/
def linecount_visual_async : FsEntry → Outcome (Nat × Nat)
  | .dir _ entries =>
    visualList (sortEntries (entries.filter FsEntry.isFile)
      ++ sortEntries (entries.filter fun e => !e.isFile))
  | _ => .panic
termination_by e => sizeOf e
decreasing_by
  simp only [sortedChain_sizeOf, FsEntry.dir.sizeOf_spec]
  omega

/-- Loop body of `linecount_visual_async` over the chained sorted listing,
in processing order:
* a regular file adds its counts under the mutexes and prints its line; the
  truncation of an over-long name can panic (`renderName = none`);
* a `badFile` propagates `Err` from `fs::metadata(..)?` / `fs::read(..)?`
  before the join loop is reached, so it wins over any child panic;
* each directory (readable or not) spawns a recursive task; an `Err` child
  is silently dropped at its `if let Ok`, a panicked child resurfaces at
  `handle.join().unwrap()` after the loop. -/
def visualList : List FsEntry → Outcome (Nat × Nat)
  | [] => .ok (0, 0)
  | .file n c :: rest =>
    match renderName n with
    | none => .panic
    | some _ =>
      match visualList rest with
      | .ok (l, b) => .ok (linesCount c + l, utf8Len c + b)
      | o => o
  | .badFile _ :: _ => .err
  | .dir m sub :: rest =>
    match visualList rest with
    | .err => .err
    | .panic => .panic
    | .ok (l, b) =>
      match linecount_visual_async (.dir m sub) with
      | .ok (cl, cb) => .ok (cl + l, cb + b)
      | .err => .ok (l, b)
      | .panic => .panic
  | .badDir _ :: rest =>
    match visualList rest with
    | .err => .err
    | _ => .panic
termination_by l => sizeOf l
decreasing_by
  all_goals simp only [List.cons.sizeOf_spec, FsEntry.dir.sizeOf_spec]
  all_goals omega

end

mutual

/-- The sequential visual walker `linecount_display` (src/main.rs:284-406)
called with `indent_amount = ind` (the source's `Option<usize>` argument is
`None` only at the root, which the source immediately replaces by `Some(0)`;
recursion always passes `Some(ind + 2)`, so the option is modelled by the
plain value with `0` meaning root).  On entry the directory header line is
printed; then the listing is materialized with `read_dir(..).expect(..)`
(panic when unreadable or not a directory), partitioned into files and
non-files by `entry.is_file()`, each group is sorted, and the chained
`files ++ dirs` sequence is processed in order by `displayList`, whose `idx`
counter starts at 0 and whose last-file test uses `files.len()`.  Returns
the (lines, bytes) total together with the printed lines in print order. -/
def linecount_display (e : FsEntry) (ind : Nat) : Outcome ((Nat × Nat) × List RLine) :=
  match e with
  | .dir n entries =>
    match displayList ind (sortEntries (entries.filter FsEntry.isFile)).length 0
        (sortEntries (entries.filter FsEntry.isFile)
          ++ sortEntries (entries.filter fun e => !e.isFile)) with
    | .ok (p, rls) => .ok (p, .header ind n :: rls)
    | o => o
  | _ => .panic
termination_by sizeOf e
decreasing_by
  simp only [sortedChain_sizeOf, FsEntry.dir.sizeOf_spec]
  omega

/-- Loop body of `linecount_display` over the chained sorted listing
(src/main.rs:342-404), processed sequentially in order, `idx` being the
`enumerate` counter:
* a regular file adds its counts, renders its line with connector `└` when
  `idx == files.len() - 1` and `├` otherwise (truncation of an over-long
  name can panic);
* a `badFile` propagates `Err` from `fs::metadata(..)?` / `fs::read(..)?`
  out of the whole call;
* a directory (readable or not) is recursed into inline with
  `indent_amount + 2`; an `Err` result is silently dropped by the
  `if let Ok` and the loop continues, while a panic aborts immediately. -/
def displayList (ind filesLen : Nat) : Nat → List FsEntry → Outcome ((Nat × Nat) × List RLine)
  | _, [] => .ok ((0, 0), [])
  | idx, .file n c :: rest =>
    match renderName n with
    | none => .panic
    | some rn =>
      match displayList ind filesLen (idx + 1) rest with
      | .ok ((l, b), rls) =>
        .ok ((linesCount c + l, utf8Len c + b),
          .fileLine ind (if idx = filesLen - 1 then '└' else '├') rn
            (linesCount c) (utf8Len c) :: rls)
      | o => o
  | _, .badFile _ :: _ => .err
  | idx, .dir m sub :: rest =>
    match linecount_display (.dir m sub) (ind + 2) with
    | .panic => .panic
    | .err =>
      match displayList ind filesLen (idx + 1) rest with
      | .ok (p, rls) => .ok (p, rls)
      | o => o
    | .ok ((cl, cb), crls) =>
      match displayList ind filesLen (idx + 1) rest with
      | .ok ((l, b), rls) => .ok ((cl + l, cb + b), crls ++ rls)
      | o => o
  | idx, .badDir m :: rest =>
    match linecount_display (.badDir m) (ind + 2) with
    | .panic => .panic
    | .err =>
      match displayList ind filesLen (idx + 1) rest with
      | .ok (p, rls) => .ok (p, rls)
      | o => o
    | .ok ((cl, cb), crls) =>
      match displayList ind filesLen (idx + 1) rest with
      | .ok ((l, b), rls) => .ok ((cl + l, cb + b), crls ++ rls)
      | o => o
termination_by _ l => sizeOf l
decreasing_by
  all_goals simp only [List.cons.sizeOf_spec, FsEntry.dir.sizeOf_spec,
    FsEntry.badDir.sizeOf_spec]
  all_goals omega

end

/-- Projection of a traversal result to its (lines, bytes) totals,
forgetting diagnostics or rendered lines. -/
def totalsOf : Outcome ((Nat × Nat) × β) → Outcome (Nat × Nat)
  | .ok (p, _) => .ok p
  | .err => .err
  | .panic => .panic

/-- The file lines a directory at depth `ind` renders, following the words
of the claim: the sorted files in order, each with connector `├`, except the
last file, which gets `└`.  `filesLen` is the number of files and `i` the
position of the head of the remaining list. -/
def renderFilesSpec (ind filesLen : Nat) : Nat → List FsEntry → List RLine
  | _, [] => []
  | i, .file n c :: rest =>
    .fileLine ind (if i + 1 = filesLen then '└' else '├') ((renderName n).getD "?")
        (linesCount c) (utf8Len c)
      :: renderFilesSpec ind filesLen (i + 1) rest
  | i, _ :: rest => renderFilesSpec ind filesLen (i + 1) rest

/-- Every list `sizeOf` is at least 1. -/
def list_sizeOf_pos : ∀ l : List FsEntry, 1 ≤ sizeOf l := by
  intro l
  cases l <;> simp only [List.nil.sizeOf_spec, List.cons.sizeOf_spec] <;> omega

/-- The sorted non-file group of a listing is no larger than the listing;
termination measure fact for `renderSpec`. -/
def sortedFilterDirs_sizeOf : ∀ l : List FsEntry,
    sizeOf (sortEntries (l.filter fun e => !e.isFile)) ≤ sizeOf l := by
  intro l
  have h1 := sortEntries_sizeOf (l.filter fun e => !e.isFile)
  have h2 := filterPartition_sizeOf l
  have h3 := list_sizeOf_pos (l.filter FsEntry.isFile)
  omega

mutual

/-- Modelled from the claim's words, to be compared with
`linecount_display`: the rendering of a (fully readable) directory is its
header line, then all its files in lexicographically sorted order — `├`
connectors except `└` on the last file — then the recursive rendering of
each subdirectory in sorted order, with the indentation amount increased
by 2. -/
def renderSpec : FsEntry → Nat → List RLine
  | .dir n entries, ind =>
    .header ind n ::
      (renderFilesSpec ind (sortEntries (entries.filter FsEntry.isFile)).length 0
          (sortEntries (entries.filter FsEntry.isFile))
        ++ renderDirsSpec (sortEntries (entries.filter fun e => !e.isFile)) (ind + 2))
  | _, _ => []
termination_by e _ => sizeOf e
decreasing_by
  exact Nat.lt_of_le_of_lt (sortedFilterDirs_sizeOf _)
    (by simp only [FsEntry.dir.sizeOf_spec]; omega)

/-- Concatenated recursive renderings of a sorted list of subdirectories. -/
def renderDirsSpec : List FsEntry → Nat → List RLine
  | [], _ => []
  | d :: rest, ind => renderSpec d ind ++ renderDirsSpec rest ind
termination_by l _ => sizeOf l
decreasing_by
  all_goals simp only [List.cons.sizeOf_spec]
  all_goals omega

end

/-- Decimal rendering of a natural number (Rust `{}` on an integer). -/
def natStr (n : Nat) : String :=
  String.mk (Nat.toDigits 10 n)

/-- Drop the trailing `'0'` characters of a digit string. -/
def trimTrailingZeros (s : List Char) : List Char :=
  (s.reverse.dropWhile (· = '0')).reverse

/-- Rust `format!("{}", n as f64 / unit as f64)` where `unit = 10 ^ w`:
the exact decimal expansion of `n / unit`, with the fractional part's
trailing zeros dropped and the decimal point omitted when the fraction is
zero, exactly as `f64`'s shortest-round-trip `Display` prints it.  (The
model is exact for every `n < 2^53`, which covers all claim-relevant
inputs; beyond that the `f64` division itself rounds.) -/
def fmtScaled (n w : Nat) : String :=
  let q := n / 10 ^ w
  let r := n % 10 ^ w
  let digits := Nat.toDigits 10 r
  let frac := trimTrailingZeros (List.replicate (w - digits.length) '0' ++ digits)
  if frac.isEmpty then natStr q else natStr q ++ "." ++ String.mk frac

/-- The function `format_byte_count` (src/main.rs:560-570).  The branch guards are the
source's integer divisions of the `u128` byte count: a unit is chosen
exactly when `byte_count / unit > 1` in integer arithmetic, i.e. when the
count is at least twice the unit. -/
def format_byte_count (byte_count : Nat) : String :=
  if byte_count / 1000000000 > 1 then fmtScaled byte_count 9 ++ " GB"
  else if byte_count / 1000000 > 1 then fmtScaled byte_count 6 ++ " MB"
  else if byte_count / 1000 > 1 then fmtScaled byte_count 3 ++ " KB"
  else natStr byte_count ++ " B"

/-- The classification result (src/main.rs:16-24). -/
inductive ContentType : Type where
  | CODE | MEDIA | EXECUTABLE | NORMAL | TEXT | LICENSE | MAKEFILE
deriving DecidableEq, Repr

/-- The table `code_extensions` (src/main.rs:58-125). -/
def code_extensions : List String :=
  ["c", "h", "cpp", "hpp", "cc", "cxx", "hh", "hxx",
   "cs", "java", "class", "jar", "kt", "kts",
   "js", "jsx", "mjs", "cjs", "ts", "tsx",
   "py", "pyc", "pyd", "pyo", "rb", "erb",
   "php", "phar", "go", "rs", "rlib", "swift", "dart",
   "scala", "lua", "r", "pl", "pm", "sql",
   "html", "htm", "xhtml", "xml", "css", "scss", "sass",
   "json", "yaml", "yml", "toml", "env", "ini", "cfg",
   "md", "rst", "cmake", "mk",
   "dockerfile", "dockerignore", "gitignore", "gitattributes"]

/-- The table `media_extensions` (src/main.rs:127-134). -/
def media_extensions : List String :=
  ["png", "jpg", "jpeg", "gif", "bmp", "tiff", "tif", "webp", "svg", "ico",
   "heic", "avif",
   "mp3", "wav", "flac", "aac", "ogg", "opus", "m4a", "wma", "aiff", "alac",
   "amr",
   "mp4", "mkv", "avi", "mov", "wmv", "flv", "webm", "m4v", "mpeg", "mpg",
   "3gp", "ogv"]

/-- The table `executable_extensions` (src/main.rs:136-142). -/
def executable_extensions : List String :=
  ["exe", "bat", "cmd", "msi",
   "run", "out", "bin", "app",
   "jar", "sh", "bash", "zsh",
   "ps1", "psm1", "psd1"]

/-- The table `text_extensions` (src/main.rs:144-148). -/
def text_extensions : List String :=
  ["txt", "md", "rtf", "csv", "log",
   "pdf", "doc", "docx", "odt", "tex", "pages"]

/-- Rust `Path::extension()` on a file name: the part after the last `.`,
or `none` when there is no `.` or the only `.` starts the name (a hidden
file such as `.gitignore` has no extension). -/
def rustExtension (name : String) : Option String :=
  let s := name.data
  if s.contains '.' then
    let afterRev := s.reverse.takeWhile (fun c => c ≠ '.')
    if s.length = afterRev.length + 1 then none
    else some (String.mk afterRev.reverse)
  else none

/-- The classifier `content_type` (src/main.rs:56-173) as a function of the file name and
the unix-executable-permission bit (`is_unix_executable`, src/main.rs:44-50).
The source reads the extension as
`extension().unwrap_or_default().to_str().unwrap()`, i.e. the empty string
when the name has none, and tests the extension tables in this exact order;
the EXECUTABLE guard is Rust's `a || b && c`, which parses as
`a || (b && c)`. -/
def content_type (name : String) (execBit : Bool) : ContentType :=
  let ext := (rustExtension name).getD ""
  if code_extensions.contains ext then .CODE
  else if media_extensions.contains ext then .MEDIA
  else if executable_extensions.contains ext
      || (execBit && !(text_extensions.contains ext)) then .EXECUTABLE
  else if text_extensions.contains ext then .TEXT
  else if name = "LICENSE" then .LICENSE
  else if name = "Makefile" then .MAKEFILE
  else .NORMAL

/-- The three traversal strategies `main` (src/main.rs:584-620) can
dispatch to. -/
inductive Strategy : Type where
  | visualAsyncWalker | displayWalker | aggregator
deriving DecidableEq, Repr

/-- The strategy selection of `main` (src/main.rs:603-618): `--test-async`
is checked first and runs `linecount_visual_async`; otherwise `--display`
runs `linecount_display`; with neither flag `linecount_async` runs. -/
def dispatch (testAsync displayFlag : Bool) : Strategy :=
  if testAsync then .visualAsyncWalker
  else if displayFlag then .displayWalker
  else .aggregator

/-- The traversal function a `Strategy` tag denotes, as a totals-level
function of the tree (the display walker's rendering projected away by
`totalsOf`, the sequential walker does not occur here).  The root `ind`
of the display walker is 0 and `main` passes `byte` counting implicitly:
both concurrent strategies always count bytes. -/
def runStrategy : Strategy → FsEntry → Outcome (Nat × Nat)
  | .visualAsyncWalker, e => linecount_visual_async e
  | .displayWalker, e => totalsOf (linecount_display e 0)
  | .aggregator, e => linecount_async e

/-- Sequentially combine the Sequential Walker's results on two listing
segments run back to back: totals add, diagnostics concatenate, and a
failure of either segment fails the whole. -/
def seqCombine :
    Outcome ((Nat × Nat) × List String) → Outcome ((Nat × Nat) × List String) →
      Outcome ((Nat × Nat) × List String)
  | .ok (p, g1), .ok (q, g2) => .ok (addPair p q, g1 ++ g2)
  | .ok _, o => o
  | .err, _ => .err
  | .panic, _ => .panic

mutual

/-- Every (readable) file name in the tree survives the visual walkers'
60-byte truncation without panicking. -/
def namesRenderable : FsEntry → Bool
  | .file n _ => (renderName n).isSome
  | .badFile _ => true
  | .badDir _ => true
  | .dir _ entries => namesRenderableList entries

/-- Conjunction of `namesRenderable` over a listing. -/
def namesRenderableList : List FsEntry → Bool
  | [] => true
  | e :: rest => namesRenderable e && namesRenderableList rest

end

/-- The entry is a file whose read fails. -/
def FsEntry.isBadFile : FsEntry → Bool
  | .badFile _ => true
  | _ => false

/-- No entry of the listing is a file whose read fails; this is exactly the
condition under which a concurrent strategy's call on the listing reaches
its join barrier instead of propagating an `Err`. -/
def noDirectBadFile (l : List FsEntry) : Bool :=
  l.all fun e => !e.isBadFile

/-- All entries are non-files. -/
def noFiles (l : List FsEntry) : Bool :=
  l.all fun e => !e.isFile

/-- The listing has all its files before all its non-files — the shape of
the chained `files ++ dirs` sequence the visual walkers traverse. -/
def filesFirst : List FsEntry → Bool
  | [] => true
  | e :: rest => if e.isFile then filesFirst rest else noFiles rest

/-! ## Supporting lemmas -/

theorem addPair_assoc (a b c : Nat × Nat) :
    addPair (addPair a b) c = addPair a (addPair b c) := by
  simp [addPair]
  omega

theorem addPair_left_comm (a b c : Nat × Nat) :
    addPair a (addPair b c) = addPair b (addPair a c) := by
  simp [addPair]
  omega

theorem addPair_zero (a : Nat × Nat) : addPair a (0, 0) = a := by
  simp [addPair]

theorem allReadableList_eq_all (l : List FsEntry) :
    allReadableList l = l.all allReadable := by
  induction l with
  | nil => rfl
  | cons e rest ih => simp [allReadableList, ih]

theorem namesRenderableList_eq_all (l : List FsEntry) :
    namesRenderableList l = l.all namesRenderable := by
  induction l with
  | nil => rfl
  | cons e rest ih => simp [namesRenderableList, ih]

theorem mem_insertByName {a e : FsEntry} {l : List FsEntry} :
    a ∈ insertByName e l ↔ a = e ∨ a ∈ l := by
  induction l with
  | nil => simp [insertByName]
  | cons x xs ih =>
    simp only [insertByName]
    split
    · simp
    · simp [ih]
      tauto

theorem mem_sortEntries {a : FsEntry} {l : List FsEntry} :
    a ∈ sortEntries l ↔ a ∈ l := by
  induction l with
  | nil => simp [sortEntries]
  | cons e rest ih =>
    simp [sortEntries, mem_insertByName, ih]

theorem sortEntries_all {p : FsEntry → Bool} {l : List FsEntry} (h : l.all p = true) :
    (sortEntries l).all p = true := by
  rw [List.all_eq_true] at h ⊢
  intro a ha
  exact h a (mem_sortEntries.mp ha)

theorem totalList_append (l₁ l₂ : List FsEntry) :
    totalList (l₁ ++ l₂) = addPair (totalList l₁) (totalList l₂) := by
  induction l₁ with
  | nil => simp [totalList, addPair]
  | cons e rest ih =>
    simp only [List.append_eq] at ih
    simp only [List.cons_append, totalList, List.append_eq, ih, addPair_assoc]

theorem totalList_insertByName (e : FsEntry) (l : List FsEntry) :
    totalList (insertByName e l) = addPair (total e) (totalList l) := by
  induction l with
  | nil => simp [insertByName, totalList]
  | cons x xs ih =>
    simp only [insertByName]
    split
    · rfl
    · simp only [totalList, ih, addPair_left_comm]

theorem totalList_sortEntries (l : List FsEntry) :
    totalList (sortEntries l) = totalList l := by
  induction l with
  | nil => rfl
  | cons e rest ih =>
    simp only [sortEntries, totalList_insertByName, ih, totalList]

theorem totalList_filterPair (l : List FsEntry) :
    addPair (totalList (l.filter FsEntry.isFile))
        (totalList (l.filter fun e => !e.isFile))
      = totalList l := by
  induction l with
  | nil => rfl
  | cons e rest ih =>
    by_cases h : e.isFile
    · simp [h]
      simp only [totalList]
      rw [addPair_assoc, ih]
    · simp [h]
      simp only [totalList]
      rw [addPair_left_comm, ih]

/-- Total of the chained, sorted files/dirs partition a visual walker
traverses: equal to the total of the raw listing. -/
theorem totalList_sortedChain (l : List FsEntry) :
    totalList (sortEntries (l.filter FsEntry.isFile)
        ++ sortEntries (l.filter fun e => !e.isFile))
      = totalList l := by
  rw [totalList_append, totalList_sortEntries, totalList_sortEntries,
    totalList_filterPair]

/-- On a fully readable listing the Concurrent Aggregator's loop returns
exactly the specification total. -/
theorem asyncList_readable :
    ∀ l : List FsEntry, allReadableList l = true → asyncList l = .ok (totalList l) := by
  intro l
  induction l using asyncList.induct with
  | case1 =>
    intro _
    simp [asyncList, totalList]
  | case2 name c rest l b hrest ih =>
    intro h
    simp only [allReadableList, allReadable, Bool.true_and] at h
    have h2 := ih h
    rw [hrest] at h2
    injection h2 with h2
    simp only [asyncList, hrest, totalList, total, addPair, ← h2]
  | case3 name c rest hno ih =>
    intro h
    simp only [allReadableList, allReadable, Bool.true_and] at h
    exact absurd (ih h) (by
      intro he
      exact hno (totalList rest).1 (totalList rest).2 (by rw [he]))
  | case4 name tail =>
    intro h
    simp [allReadableList, allReadable] at h
  | case5 name sub rest hrest ih =>
    intro h
    simp only [allReadableList, allReadable, Bool.and_eq_true] at h
    have h2 := ih h.2
    rw [hrest] at h2
    exact absurd h2 (by simp)
  | case6 name sub rest hrest ih =>
    intro h
    simp only [allReadableList, allReadable, Bool.and_eq_true] at h
    have h2 := ih h.2
    rw [hrest] at h2
    exact absurd h2 (by simp)
  | case7 name sub rest l b hrest cl cb hsub ihr ihs =>
    intro h
    simp only [allReadableList, allReadable, Bool.and_eq_true] at h
    have h2 := ihr h.2
    rw [hrest] at h2
    injection h2 with h2
    have h3 := ihs h.1
    rw [hsub] at h3
    injection h3 with h3
    simp only [asyncList, hrest, hsub, totalList, total, addPair, ← h2, ← h3]
  | case8 name sub rest l b hrest hsub ihr ihs =>
    intro h
    simp only [allReadableList, allReadable, Bool.and_eq_true] at h
    have h3 := ihs h.1
    rw [hsub] at h3
    exact absurd h3 (by simp)
  | case9 name sub rest l b hrest hsub ihr ihs =>
    intro h
    simp only [allReadableList, allReadable, Bool.and_eq_true] at h
    have h3 := ihs h.1
    rw [hsub] at h3
    exact absurd h3 (by simp)
  | case10 name rest hrest ih =>
    intro h
    simp [allReadableList, allReadable] at h
  | case11 name rest hrest ih =>
    intro h
    simp [allReadableList, allReadable] at h

/-- On a fully readable listing the Sequential Walker's loop returns the
specification line total, the byte total exactly when the byte toggle is
set, and an empty diagnostic stream. -/
theorem linecountEntries_readable (bt : Bool) :
    ∀ l : List FsEntry, allReadableList l = true →
      linecountEntries bt l
        = .ok (((totalList l).1, bif bt then (totalList l).2 else 0), []) := by
  intro l
  induction l using linecountEntries.induct bt with
  | case1 =>
    intro _
    cases bt <;> simp [linecountEntries, totalList]
  | case2 name c rest l b logs hrest ih =>
    intro h
    simp only [allReadableList, allReadable, Bool.true_and] at h
    have h2 := ih h
    rw [hrest] at h2
    injection h2 with h2
    simp only [Prod.mk.injEq] at h2
    obtain ⟨⟨h2a, h2b⟩, h2c⟩ := h2
    subst h2a h2b h2c
    cases bt <;>
      simp [linecountEntries, hrest, totalList, total, addPair]
  | case3 name c rest hno ih =>
    intro h
    simp only [allReadableList, allReadable, Bool.true_and] at h
    exact absurd (ih h) (by
      intro he
      exact hno (totalList rest).1 (bif bt then (totalList rest).2 else 0) [] he)
  | case4 name tail =>
    intro h
    simp [allReadableList, allReadable] at h
  | case5 n rest p logs hrest ih =>
    intro h
    simp [allReadableList, allReadable] at h
  | case6 n rest hno ih =>
    intro h
    simp [allReadableList, allReadable] at h
  | case7 n sub rest hrest ih =>
    intro h
    simp only [allReadableList, allReadable, Bool.and_eq_true] at h
    have h2 := ih h.2
    rw [hrest] at h2
    exact absurd h2 (by simp)
  | case8 n sub rest hrest ih =>
    intro h
    simp only [allReadableList, allReadable, Bool.and_eq_true] at h
    have h2 := ih h.2
    rw [hrest] at h2
    exact absurd h2 (by simp)
  | case9 n sub rest l b logs hrest cl cb clogs hsub ihr ihs =>
    intro h
    simp only [allReadableList, allReadable, Bool.and_eq_true] at h
    have h2 := ihr h.2
    rw [hrest] at h2
    injection h2 with h2
    simp only [Prod.mk.injEq] at h2
    obtain ⟨⟨h2a, h2b⟩, h2c⟩ := h2
    have h3 := ihs h.1
    rw [hsub] at h3
    injection h3 with h3
    simp only [Prod.mk.injEq] at h3
    obtain ⟨⟨h3a, h3b⟩, h3c⟩ := h3
    subst h2a h2b h2c h3a h3b h3c
    cases bt <;>
      simp [linecountEntries, hrest, hsub, totalList, total, addPair]
  | case10 n sub rest l b logs hrest hno ihr ihs =>
    intro h
    simp only [allReadableList, allReadable, Bool.and_eq_true] at h
    exact absurd (ihs h.1) (by
      intro he
      exact hno (totalList sub).1 (bif bt then (totalList sub).2 else 0) [] he)

/-- The Concurrent Visual Walker's loop returns the specification total on
any listing whose files are readable with renderable names and whose
directory entries recursively traverse to their totals. -/
theorem visualList_ok_aux :
    ∀ l : List FsEntry,
      (∀ e ∈ l, (∃ n c, e = .file n c ∧ (renderName n).isSome = true)
        ∨ (∃ m sub, e = .dir m sub ∧ linecount_visual_async e = .ok (total e))) →
      visualList l = .ok (totalList l) := by
  intro l
  induction l with
  | nil =>
    intro _
    simp [visualList, totalList]
  | cons e rest ih =>
    intro h
    have hrest := ih fun x hx => h x (List.mem_cons_of_mem _ hx)
    rcases h e (List.mem_cons_self e rest) with ⟨n, c, rfl, hn⟩ | ⟨m, sub, rfl, hok⟩
    · rcases Option.isSome_iff_exists.mp hn with ⟨rn, hrn⟩
      simp [visualList, hrn, hrest, totalList, total, addPair]
    · simp [visualList, hrest, hok, totalList, total, addPair]

/-- Strong-induction core: on a fully readable tree whose file names all
render, the Concurrent Visual Walker returns the specification total. -/
theorem visual_ok_of_readable :
    ∀ (k : Nat) (entries : List FsEntry), sizeOf entries ≤ k →
      allReadableList entries = true → namesRenderableList entries = true →
      ∀ nm, linecount_visual_async (.dir nm entries) = .ok (totalList entries) := by
  intro k
  induction k with
  | zero =>
    intro entries hk
    have h1 := list_sizeOf_pos entries
    omega
  | succ k ih =>
    intro entries hk hr hn nm
    have hre : ∀ e ∈ entries, allReadable e = true := by
      rw [allReadableList_eq_all, List.all_eq_true] at hr
      exact hr
    have hne : ∀ e ∈ entries, namesRenderable e = true := by
      rw [namesRenderableList_eq_all, List.all_eq_true] at hn
      exact hn
    have haux : ∀ e ∈ sortEntries (entries.filter FsEntry.isFile)
        ++ sortEntries (entries.filter fun x => !x.isFile),
        (∃ n c, e = .file n c ∧ (renderName n).isSome = true)
        ∨ (∃ m sub, e = .dir m sub ∧ linecount_visual_async e = .ok (total e)) := by
      intro e he
      have heent : e ∈ entries := by
        rcases List.mem_append.mp he with h | h
        · exact (List.mem_filter.mp (mem_sortEntries.mp h)).1
        · exact (List.mem_filter.mp (mem_sortEntries.mp h)).1
      have hsz := List.sizeOf_lt_of_mem heent
      cases e with
      | file n c =>
        left
        refine ⟨n, c, rfl, ?_⟩
        have hn2 := hne _ heent
        simpa [namesRenderable] using hn2
      | badFile n =>
        have hr2 := hre _ heent
        simp [allReadable] at hr2
      | dir m sub =>
        right
        refine ⟨m, sub, rfl, ?_⟩
        have hs : sizeOf sub ≤ k := by
          simp only [FsEntry.dir.sizeOf_spec] at hsz
          omega
        have hrs : allReadableList sub = true := by
          have hr2 := hre _ heent
          simpa [allReadable] using hr2
        have hns : namesRenderableList sub = true := by
          have hn2 := hne _ heent
          simpa [namesRenderable] using hn2
        rw [ih sub hs hrs hns m]
        simp [total]
      | badDir n =>
        have hr2 := hre _ heent
        simp [allReadable] at hr2
    simp only [linecount_visual_async]
    rw [visualList_ok_aux _ haux, totalList_sortedChain]

/-- On a fully readable tree with renderable names the Concurrent Visual
Walker returns the specification total. -/
theorem visual_readable (entries : List FsEntry) (hr : allReadableList entries = true)
    (hn : namesRenderableList entries = true) (nm : String) :
    linecount_visual_async (.dir nm entries) = .ok (totalList entries) :=
  visual_ok_of_readable (sizeOf entries) entries le_rfl hr hn nm

/-- Processing the file segment at the front of the chained listing: each
file adds its counts and renders one line whose connector is `└` exactly on
the last file (`idx = filesLen - 1` in the source agrees with "position + 1
= number of files" because `idx` counts the files already consumed). -/
theorem displayList_files :
    ∀ (F rest : List FsEntry) (ind fl idx : Nat),
      (∀ e ∈ F, ∃ n c, e = .file n c ∧ (renderName n).isSome = true) →
      idx + F.length = fl →
      displayList ind fl idx (F ++ rest)
        = match displayList ind fl (idx + F.length) rest with
          | .ok (p, rls) =>
            .ok (addPair (totalList F) p, renderFilesSpec ind fl idx F ++ rls)
          | o => o := by
  intro F
  induction F with
  | nil =>
    intro rest ind fl idx _ _
    simp only [List.nil_append, List.length_nil, Nat.add_zero, renderFilesSpec,
      totalList, List.nil_append]
    cases hd : displayList ind fl idx rest <;> simp [addPair]
  | cons e F' ihF =>
    intro rest ind fl idx hF hfl
    rcases hF e (List.mem_cons_self e F') with ⟨n, c, rfl, hn⟩
    rcases Option.isSome_iff_exists.mp hn with ⟨rn, hrn⟩
    simp only [List.length_cons] at hfl
    have ih2 := ihF rest ind fl (idx + 1)
      (fun x hx => hF x (List.mem_cons_of_mem _ hx)) (by omega)
    have hidx : idx + 1 + F'.length = idx + (F'.length + 1) := by omega
    rw [hidx] at ih2
    have hconn : (idx = fl - 1) ↔ (idx + 1 = fl) := by omega
    simp only [List.cons_append, displayList, hrn, List.length_cons]
    rw [ih2]
    cases hd : displayList ind fl (idx + (F'.length + 1)) rest with
    | ok pr =>
      simp only [hd, hconn, renderFilesSpec, totalList, List.cons_append]
      simp [addPair, total, hrn]
      omega
    | err => simp only [hd]
    | panic => simp only [hd]

/-- Processing the directory segment at the back of the chained listing:
each subdirectory is recursed into at `indent_amount + 2` and contributes
its total and its recursive rendering, in order. -/
theorem displayList_dirs :
    ∀ (D : List FsEntry) (ind fl idx : Nat),
      (∀ e ∈ D, ∃ m sub, e = .dir m sub ∧
        linecount_display e (ind + 2) = .ok (total e, renderSpec e (ind + 2))) →
      displayList ind fl idx D = .ok (totalList D, renderDirsSpec D (ind + 2)) := by
  intro D
  induction D with
  | nil =>
    intro ind fl idx _
    simp [displayList, totalList, renderDirsSpec]
  | cons e D' ih =>
    intro ind fl idx hD
    rcases hD e (List.mem_cons_self e D') with ⟨m, sub, rfl, hok⟩
    have ih2 := ih ind fl (idx + 1) fun x hx => hD x (List.mem_cons_of_mem _ hx)
    simp only [displayList, hok, ih2, totalList, renderDirsSpec, total, addPair]

/-- Strong-induction core of the rendering refinement: on a fully readable
tree with renderable names, the sequential visual walker returns the
specification total together with exactly the claim-shaped rendering
`renderSpec`. -/
theorem display_ok_of_readable :
    ∀ (k : Nat) (entries : List FsEntry), sizeOf entries ≤ k →
      allReadableList entries = true → namesRenderableList entries = true →
      ∀ nm ind, linecount_display (.dir nm entries) ind
        = .ok (totalList entries, renderSpec (.dir nm entries) ind) := by
  intro k
  induction k with
  | zero =>
    intro entries hk
    have h1 := list_sizeOf_pos entries
    omega
  | succ k ih =>
    intro entries hk hr hn nm ind
    have hre : ∀ e ∈ entries, allReadable e = true := by
      rw [allReadableList_eq_all, List.all_eq_true] at hr
      exact hr
    have hne : ∀ e ∈ entries, namesRenderable e = true := by
      rw [namesRenderableList_eq_all, List.all_eq_true] at hn
      exact hn
    have hF : ∀ e ∈ sortEntries (entries.filter FsEntry.isFile),
        ∃ n c, e = .file n c ∧ (renderName n).isSome = true := by
      intro e he
      have hm := List.mem_filter.mp (mem_sortEntries.mp he)
      cases e with
      | file n c =>
        refine ⟨n, c, rfl, ?_⟩
        have hn2 := hne _ hm.1
        simpa [namesRenderable] using hn2
      | badFile n =>
        have hr2 := hre _ hm.1
        simp [allReadable] at hr2
      | dir m sub => simp [FsEntry.isFile] at hm
      | badDir n => simp [FsEntry.isFile] at hm
    have hD : ∀ e ∈ sortEntries (entries.filter fun x => !x.isFile),
        ∃ m sub, e = .dir m sub ∧
          linecount_display e (ind + 2) = .ok (total e, renderSpec e (ind + 2)) := by
      intro e he
      have hm := List.mem_filter.mp (mem_sortEntries.mp he)
      have hsz := List.sizeOf_lt_of_mem hm.1
      cases e with
      | file n c => simp [FsEntry.isFile] at hm
      | badFile n =>
        have hr2 := hre _ hm.1
        simp [allReadable] at hr2
      | dir m sub =>
        refine ⟨m, sub, rfl, ?_⟩
        have hs : sizeOf sub ≤ k := by
          simp only [FsEntry.dir.sizeOf_spec] at hsz
          omega
        have hrs : allReadableList sub = true := by
          have hr2 := hre _ hm.1
          simpa [allReadable] using hr2
        have hns : namesRenderableList sub = true := by
          have hn2 := hne _ hm.1
          simpa [namesRenderable] using hn2
        rw [ih sub hs hrs hns m (ind + 2)]
        simp [total]
      | badDir n =>
        have hr2 := hre _ hm.1
        simp [allReadable] at hr2
    simp only [linecount_display]
    rw [displayList_files _ _ _ _ _ hF (Nat.zero_add _)]
    rw [Nat.zero_add]
    rw [displayList_dirs _ _ _ _ hD]
    simp only [renderSpec]
    rw [totalList_sortEntries, totalList_sortEntries, totalList_filterPair]

/-- The Aggregator's loop can only return `Err` when the listing itself
contains a file whose read fails: errors of spawned subtrees are caught by
their `if let Ok` and never resurface. -/
theorem asyncList_ne_err :
    ∀ l : List FsEntry, noDirectBadFile l = true → asyncList l ≠ .err := by
  intro l
  induction l with
  | nil =>
    intro _ h
    simp [asyncList] at h
  | cons e rest ih =>
    intro hn h
    simp only [noDirectBadFile, List.all_cons, Bool.and_eq_true] at hn
    have ih2 : asyncList rest ≠ .err := ih hn.2
    cases e with
    | file n c =>
      cases hv : asyncList rest with
      | ok p =>
        rw [asyncList, hv] at h
        simp at h
      | err => exact ih2 hv
      | panic =>
        rw [asyncList, hv] at h
        simp at h
    | badFile n =>
      simp [FsEntry.isBadFile] at hn
    | dir m sub =>
      cases hv : asyncList rest with
      | ok p =>
        rw [asyncList, hv] at h
        cases hs : asyncList sub <;> rw [hs] at h <;> simp at h
      | err => exact ih2 hv
      | panic =>
        rw [asyncList, hv] at h
        simp at h
    | badDir m =>
      cases hv : asyncList rest with
      | ok p =>
        rw [asyncList, hv] at h
        simp at h
      | err => exact ih2 hv
      | panic =>
        rw [asyncList, hv] at h
        simp at h

/-- When the listing holds a directory whose `read_dir` fails and no file
whose read fails, the Aggregator's call panics: the spawned child's
`.expect(..)` panic resurfaces at `handle.join().unwrap()`. -/
theorem asyncList_panic_of_badDir :
    ∀ (l : List FsEntry) (n : String), FsEntry.badDir n ∈ l →
      noDirectBadFile l = true → asyncList l = .panic := by
  intro l
  induction l with
  | nil =>
    intro n hm
    simp at hm
  | cons e rest ih =>
    intro n hm hn
    have hn2 := hn
    simp only [noDirectBadFile, List.all_cons, Bool.and_eq_true] at hn2
    rcases List.mem_cons.mp hm with rfl | hmem
    · cases hv : asyncList rest with
      | ok p => rw [asyncList, hv]
      | err => exact absurd hv (asyncList_ne_err rest hn2.2)
      | panic => rw [asyncList, hv]
    · have hrest := ih n hmem hn2.2
      cases e with
      | file nm c => rw [asyncList, hrest]
      | badFile nm => simp [FsEntry.isBadFile] at hn2
      | dir m sub => rw [asyncList, hrest]
      | badDir m => rw [asyncList, hrest]

/-- A spawned subtree whose recursive call returns `Err` is silently
dropped: the Aggregator's result on a listing containing it equals its
result on the listing without it. -/
theorem asyncList_drop_err :
    ∀ (pre suf : List FsEntry) (m : String) (sub : List FsEntry),
      asyncList sub = .err →
      asyncList (pre ++ .dir m sub :: suf) = asyncList (pre ++ suf) := by
  intro pre
  induction pre with
  | nil =>
    intro suf m sub herr
    simp only [List.nil_append]
    cases hv : asyncList suf with
    | ok p => rw [asyncList, hv, herr]
    | err => rw [asyncList, hv]
    | panic => rw [asyncList, hv]
  | cons x pre' ih =>
    intro suf m sub herr
    have ih2 := ih suf m sub herr
    cases x with
    | file n c =>
      simp only [List.cons_append, asyncList, ih2]
    | badFile n =>
      simp only [List.cons_append, asyncList]
    | dir z w =>
      simp only [List.cons_append, asyncList, ih2]
    | badDir z =>
      simp only [List.cons_append, asyncList, ih2]

/-- The Visual Walker's loop can only return `Err` when its listing itself
contains a file whose read fails. -/
theorem visualList_ne_err :
    ∀ l : List FsEntry, noDirectBadFile l = true → visualList l ≠ .err := by
  intro l
  induction l with
  | nil =>
    intro _ h
    simp [visualList] at h
  | cons e rest ih =>
    intro hn h
    simp only [noDirectBadFile, List.all_cons, Bool.and_eq_true] at hn
    have ih2 : visualList rest ≠ .err := ih hn.2
    cases e with
    | file n c =>
      rcases hrn : renderName n with _ | rn
      · rw [visualList, hrn] at h
        simp at h
      · cases hv : visualList rest with
        | ok p =>
          rw [visualList, hrn, hv] at h
          simp at h
        | err => exact ih2 hv
        | panic =>
          rw [visualList, hrn, hv] at h
          simp at h
    | badFile n =>
      simp [FsEntry.isBadFile] at hn
    | dir m sub =>
      cases hv : visualList rest with
      | ok p =>
        rw [visualList, hv] at h
        cases hs : linecount_visual_async (.dir m sub) <;> rw [hs] at h <;> simp at h
      | err => exact ih2 hv
      | panic =>
        rw [visualList, hv] at h
        simp at h
    | badDir m =>
      cases hv : visualList rest with
      | ok p =>
        rw [visualList, hv] at h
        simp at h
      | err => exact ih2 hv
      | panic =>
        rw [visualList, hv] at h
        simp at h

/-- When the Visual Walker's listing holds a directory whose `read_dir`
fails and no file whose read fails, the call panics at its join barrier. -/
theorem visualList_panic_of_badDir :
    ∀ (l : List FsEntry) (n : String), FsEntry.badDir n ∈ l →
      noDirectBadFile l = true → visualList l = .panic := by
  intro l
  induction l with
  | nil =>
    intro n hm
    simp at hm
  | cons e rest ih =>
    intro n hm hn
    have hn2 := hn
    simp only [noDirectBadFile, List.all_cons, Bool.and_eq_true] at hn2
    rcases List.mem_cons.mp hm with rfl | hmem
    · cases hv : visualList rest with
      | ok p => rw [visualList, hv]
      | err => exact absurd hv (visualList_ne_err rest hn2.2)
      | panic => rw [visualList, hv]
    · have hrest := ih n hmem hn2.2
      cases e with
      | file nm c =>
        rcases hrn : renderName nm with _ | rn
        · rw [visualList, hrn]
        · rw [visualList, hrn, hrest]
      | badFile nm => simp [FsEntry.isBadFile] at hn2
      | dir m sub => rw [visualList, hrest]
      | badDir m => rw [visualList, hrest]

theorem totalsOf_eq_ok {β : Type} {X : Outcome ((Nat × Nat) × β)} {p : Nat × Nat} :
    totalsOf X = .ok p ↔ ∃ r, X = .ok (p, r) := by
  cases X with
  | ok v =>
    cases v with
    | mk q r =>
      simp only [totalsOf, Outcome.ok.injEq]
      constructor
      · intro h
        exact ⟨r, by rw [h]⟩
      · rintro ⟨r', hr⟩
        simp only [Prod.mk.injEq] at hr
        rw [hr.1]
  | err => simp [totalsOf]
  | panic => simp [totalsOf]

theorem totalsOf_eq_err {β : Type} {X : Outcome ((Nat × Nat) × β)} :
    totalsOf X = .err ↔ X = .err := by
  cases X with
  | ok v => cases v; simp [totalsOf]
  | err => simp [totalsOf]
  | panic => simp [totalsOf]

theorem totalsOf_eq_panic {β : Type} {X : Outcome ((Nat × Nat) × β)} :
    totalsOf X = .panic ↔ X = .panic := by
  cases X with
  | ok v => cases v; simp [totalsOf]
  | err => simp [totalsOf]
  | panic => simp [totalsOf]

theorem entry_sizeOf_pos (e : FsEntry) : 1 ≤ sizeOf e := by
  cases e <;> simp only [FsEntry.file.sizeOf_spec, FsEntry.badFile.sizeOf_spec,
    FsEntry.dir.sizeOf_spec, FsEntry.badDir.sizeOf_spec] <;> omega

/-- A listing of non-files contains no file whose read fails. -/
theorem noDirectBadFile_of_noFiles {l : List FsEntry} (h : noFiles l = true) :
    noDirectBadFile l = true := by
  simp only [noFiles, noDirectBadFile, List.all_eq_true] at h ⊢
  intro e he
  have h2 := h e he
  cases e with
  | file n c => simp [FsEntry.isFile] at h2
  | badFile n => simp [FsEntry.isFile] at h2
  | dir n es => simp [FsEntry.isBadFile]
  | badDir n => simp [FsEntry.isBadFile]

theorem filesFirst_of_noFiles {l : List FsEntry} (h : noFiles l = true) :
    filesFirst l = true := by
  cases l with
  | nil => rfl
  | cons e rest =>
    simp only [noFiles, List.all_cons, Bool.and_eq_true] at h
    simp only [filesFirst]
    split
    · next hf =>
      rw [Bool.not_eq_true'] at h
      rw [h.1] at hf
      cases hf
    · exact h.2

theorem filesFirst_append {F D : List FsEntry} (hF : F.all FsEntry.isFile = true)
    (hD : noFiles D = true) : filesFirst (F ++ D) = true := by
  induction F with
  | nil => exact filesFirst_of_noFiles hD
  | cons e F' ih =>
    simp only [List.all_cons, Bool.and_eq_true] at hF
    simp only [List.cons_append, filesFirst, hF.1, if_pos]
    exact ih hF.2

/-- The chained sorted files/dirs partition has all its files first. -/
theorem filesFirst_chain (l : List FsEntry) :
    filesFirst (sortEntries (l.filter FsEntry.isFile)
      ++ sortEntries (l.filter fun e => !e.isFile)) = true := by
  apply filesFirst_append
  · rw [List.all_eq_true]
    intro e he
    exact (List.mem_filter.mp (mem_sortEntries.mp he)).2
  · rw [noFiles, List.all_eq_true]
    intro e he
    exact (List.mem_filter.mp (mem_sortEntries.mp he)).2

/-- Totals equivalence of the two visual walkers, loop level: on a listing
with all files first (the shape both walkers traverse) whose entries
satisfy the totals equivalence at every indentation, the sequential
display loop and the concurrent visual loop produce the same totals
outcome. -/
theorem displayList_visualList :
    ∀ (l : List FsEntry), filesFirst l = true →
      (∀ e ∈ l, ∀ i, totalsOf (linecount_display e i) = linecount_visual_async e) →
      ∀ ind fl idx, totalsOf (displayList ind fl idx l) = visualList l := by
  intro l
  induction l with
  | nil =>
    intro _ _ ind fl idx
    simp [displayList, visualList, totalsOf]
  | cons e rest ih =>
    intro hf hall ind fl idx
    cases e with
    | file n c =>
      have hf2 : filesFirst rest = true := by
        simpa [filesFirst, FsEntry.isFile] using hf
      have ih2 := ih hf2 (fun x hx i => hall x (List.mem_cons_of_mem _ hx) i)
        ind fl (idx + 1)
      rcases hrn : renderName n with _ | rn
      · simp only [displayList, visualList, hrn, totalsOf]
      · cases hv : visualList rest with
        | ok p =>
          rw [hv] at ih2
          rcases totalsOf_eq_ok.mp ih2 with ⟨rls, hrls⟩
          cases p with
          | mk pl pb =>
            simp only [displayList, visualList, hrn, hv, hrls, totalsOf]
        | err =>
          rw [hv] at ih2
          rw [totalsOf_eq_err] at ih2
          simp only [displayList, visualList, hrn, hv, ih2, totalsOf]
        | panic =>
          rw [hv] at ih2
          rw [totalsOf_eq_panic] at ih2
          simp only [displayList, visualList, hrn, hv, ih2, totalsOf]
    | badFile n =>
      simp only [displayList, visualList, totalsOf]
    | dir m sub =>
      have hnf : noFiles rest = true := by
        simpa [filesFirst, FsEntry.isFile] using hf
      have hf2 : filesFirst rest = true := filesFirst_of_noFiles hnf
      have hne : visualList rest ≠ .err :=
        visualList_ne_err rest (noDirectBadFile_of_noFiles hnf)
      have ih2 := ih hf2 (fun x hx i => hall x (List.mem_cons_of_mem _ hx) i)
        ind fl (idx + 1)
      have hchild := hall (.dir m sub) (List.mem_cons_self _ _) (ind + 2)
      cases hc : linecount_visual_async (.dir m sub) with
      | ok cp =>
        rw [hc] at hchild
        rcases totalsOf_eq_ok.mp hchild with ⟨crls, hcrls⟩
        cases cp with
        | mk cl cb =>
          cases hv : visualList rest with
          | ok p =>
            rw [hv] at ih2
            rcases totalsOf_eq_ok.mp ih2 with ⟨rls, hrls⟩
            cases p with
            | mk pl pb =>
              simp only [displayList, visualList, hcrls, hv, hc, hrls, totalsOf]
          | err => exact absurd hv hne
          | panic =>
            rw [hv] at ih2
            rw [totalsOf_eq_panic] at ih2
            simp only [displayList, visualList, hcrls, hv, hc, ih2, totalsOf]
      | err =>
        rw [hc] at hchild
        rw [totalsOf_eq_err] at hchild
        cases hv : visualList rest with
        | ok p =>
          rw [hv] at ih2
          rcases totalsOf_eq_ok.mp ih2 with ⟨rls, hrls⟩
          cases p with
          | mk pl pb =>
            simp only [displayList, visualList, hchild, hv, hc, hrls, totalsOf]
        | err => exact absurd hv hne
        | panic =>
          rw [hv] at ih2
          rw [totalsOf_eq_panic] at ih2
          simp only [displayList, visualList, hchild, hv, hc, ih2, totalsOf]
      | panic =>
        rw [hc] at hchild
        rw [totalsOf_eq_panic] at hchild
        cases hv : visualList rest with
        | ok p =>
          simp only [displayList, visualList, hchild, hv, hc, totalsOf]
        | err => exact absurd hv hne
        | panic =>
          simp only [displayList, visualList, hchild, hv, hc, totalsOf]
    | badDir m =>
      have hnf : noFiles rest = true := by
        simpa [filesFirst, FsEntry.isFile] using hf
      have hne : visualList rest ≠ .err :=
        visualList_ne_err rest (noDirectBadFile_of_noFiles hnf)
      have hbd : linecount_display (FsEntry.badDir m) (ind + 2) = .panic := by
        simp only [linecount_display]
      cases hv : visualList rest with
      | ok p =>
        simp only [displayList, visualList, hbd, hv, totalsOf]
      | err => exact absurd hv hne
      | panic =>
        simp only [displayList, visualList, hbd, hv, totalsOf]

/-- Totals equivalence of the two visual walkers: for EVERY tree — readable
or not, names renderable or not — the sequential `linecount_display` and
the concurrent `linecount_visual_async` produce the same totals outcome
(equal totals when both return, and the same error/panic shape otherwise),
at every indentation. -/
theorem display_visual_totals :
    ∀ (k : Nat) (e : FsEntry), sizeOf e ≤ k → ∀ ind,
      totalsOf (linecount_display e ind) = linecount_visual_async e := by
  intro k
  induction k with
  | zero =>
    intro e hk
    have := entry_sizeOf_pos e
    omega
  | succ k ih =>
    intro e hk ind
    cases e with
    | file n c => simp [linecount_display, linecount_visual_async, totalsOf]
    | badFile n => simp [linecount_display, linecount_visual_async, totalsOf]
    | badDir n => simp [linecount_display, linecount_visual_async, totalsOf]
    | dir nm entries =>
      have hall : ∀ x ∈ sortEntries (entries.filter FsEntry.isFile)
          ++ sortEntries (entries.filter fun e => !e.isFile), ∀ i,
          totalsOf (linecount_display x i) = linecount_visual_async x := by
        intro x hx i
        have hxent : x ∈ entries := by
          rcases List.mem_append.mp hx with h | h
          · exact (List.mem_filter.mp (mem_sortEntries.mp h)).1
          · exact (List.mem_filter.mp (mem_sortEntries.mp h)).1
        have hsz := List.sizeOf_lt_of_mem hxent
        have hsz2 : sizeOf entries < sizeOf (FsEntry.dir nm entries) := by
          simp only [FsEntry.dir.sizeOf_spec]
          omega
        exact ih x (by omega) i
      have hmain := displayList_visualList _ (filesFirst_chain entries) hall ind
        (sortEntries (entries.filter FsEntry.isFile)).length 0
      simp only [linecount_display, linecount_visual_async]
      rw [← hmain]
      cases hd : displayList ind (sortEntries (entries.filter FsEntry.isFile)).length 0
          (sortEntries (entries.filter FsEntry.isFile)
            ++ sortEntries (entries.filter fun e => !e.isFile)) with
      | ok v =>
        cases v with
        | mk p rls => simp [totalsOf]
      | err => simp [totalsOf]
      | panic => simp [totalsOf]

/-- The Sequential Walker processes a listing segmentwise: its result on a
concatenation is the sequential combination of its results on the parts. -/
theorem linecountEntries_append (bt : Bool) :
    ∀ l₁ l₂ : List FsEntry,
      linecountEntries bt (l₁ ++ l₂)
        = seqCombine (linecountEntries bt l₁) (linecountEntries bt l₂) := by
  intro l₁ l₂
  induction l₁ with
  | nil =>
    simp only [List.nil_append, linecountEntries]
    cases h2 : linecountEntries bt l₂ with
    | ok v =>
      rcases v with ⟨⟨a, b⟩, g⟩
      simp [seqCombine, addPair]
    | err => simp [seqCombine]
    | panic => simp [seqCombine]
  | cons e rest ih =>
    cases e with
    | file n c =>
      simp only [List.cons_append, linecountEntries]
      rw [ih]
      cases h1 : linecountEntries bt rest with
      | ok v1 =>
        cases h2 : linecountEntries bt l₂ with
        | ok v2 =>
          rcases v1 with ⟨⟨a1, b1⟩, g1⟩
          rcases v2 with ⟨⟨a2, b2⟩, g2⟩
          simp [seqCombine, addPair]
          omega
        | err => simp [seqCombine]
        | panic => simp [seqCombine]
      | err => simp [seqCombine]
      | panic => simp [seqCombine]
    | badFile n =>
      simp only [List.cons_append, linecountEntries, seqCombine]
    | badDir n =>
      simp only [List.cons_append, linecountEntries]
      rw [ih]
      cases h1 : linecountEntries bt rest with
      | ok v1 =>
        cases h2 : linecountEntries bt l₂ with
        | ok v2 =>
          rcases v1 with ⟨⟨a1, b1⟩, g1⟩
          rcases v2 with ⟨⟨a2, b2⟩, g2⟩
          simp [seqCombine, addPair]
        | err => simp [seqCombine]
        | panic => simp [seqCombine]
      | err => simp [seqCombine]
      | panic => simp [seqCombine]
    | dir n sub =>
      simp only [List.cons_append, linecountEntries]
      rw [ih]
      cases h1 : linecountEntries bt rest with
      | ok v1 =>
        cases h2 : linecountEntries bt l₂ with
        | ok v2 =>
          rcases v1 with ⟨⟨a1, b1⟩, g1⟩
          rcases v2 with ⟨⟨a2, b2⟩, g2⟩
          cases h3 : linecountEntries bt sub with
          | ok v3 =>
            rcases v3 with ⟨⟨a3, b3⟩, g3⟩
            simp [seqCombine, addPair]
            omega
          | err => simp [seqCombine, addPair]
          | panic => simp [seqCombine, addPair]
        | err =>
          rcases v1 with ⟨⟨a1, b1⟩, g1⟩
          cases h3 : linecountEntries bt sub <;> simp [seqCombine]
        | panic =>
          rcases v1 with ⟨⟨a1, b1⟩, g1⟩
          cases h3 : linecountEntries bt sub <;> simp [seqCombine]
      | err => simp [seqCombine]
      | panic => simp [seqCombine]

/-- List-level form of the byte-toggle property: with the toggle off the
Sequential Walker's loop returns the same outcome with the same lines and
diagnostics, and a byte count of exactly 0. -/
theorem linecountEntries_toggle :
    ∀ l : List FsEntry,
      linecountEntries false l
        = match linecountEntries true l with
          | .ok ((a, _), logs) => .ok ((a, 0), logs)
          | o => o := by
  intro l
  induction l using linecountEntries.induct true with
  | case1 => simp [linecountEntries]
  | case2 name c rest l b logs hrest ih =>
    rw [hrest] at ih
    simp [linecountEntries, hrest, ih]
  | case3 name c rest hno ih =>
    cases hv : linecountEntries true rest with
    | ok v => exact absurd hv (by rcases v with ⟨⟨a, b⟩, g⟩; exact fun h => hno a b g h)
    | err =>
      rw [hv] at ih
      simp only [linecountEntries, hv, ih]
    | panic =>
      rw [hv] at ih
      simp only [linecountEntries, hv, ih]
  | case4 name tail => simp [linecountEntries]
  | case5 n rest p logs hrest ih =>
    rw [hrest] at ih
    rcases p with ⟨a, b⟩
    simp only [linecountEntries, hrest, ih]
  | case6 n rest hno ih =>
    cases hv : linecountEntries true rest with
    | ok v => exact absurd hv (by rcases v with ⟨⟨a, b⟩, g⟩; exact fun h => hno (a, b) g h)
    | err =>
      rw [hv] at ih
      simp only [linecountEntries, hv, ih]
    | panic =>
      rw [hv] at ih
      simp only [linecountEntries, hv, ih]
  | case7 n sub rest hrest ih =>
    rw [hrest] at ih
    simp only [linecountEntries, hrest, ih]
  | case8 n sub rest hrest ih =>
    rw [hrest] at ih
    simp only [linecountEntries, hrest, ih]
  | case9 n sub rest l b logs hrest cl cb clogs hsub ihr ihs =>
    rw [hrest] at ihr
    rw [hsub] at ihs
    simp [linecountEntries, hrest, hsub, ihr, ihs]
  | case10 n sub rest l b logs hrest hno ihr ihs =>
    rw [hrest] at ihr
    cases hv : linecountEntries true sub with
    | ok v => exact absurd hv (by rcases v with ⟨⟨a, b⟩, g⟩; exact fun h => hno a b g h)
    | err =>
      rw [hv] at ihs
      simp only [linecountEntries, hrest, hv, ihr, ihs]
    | panic =>
      rw [hv] at ihs
      simp only [linecountEntries, hrest, hv, ihr, ihs]

/-- Rust's byte slice `[..b]` on an all-ASCII character list is the first
`b` characters. -/
theorem byteTruncate_ascii :
    ∀ (b : Nat) (l : List Char), (∀ c ∈ l, c.utf8Size = 1) → b ≤ l.length →
      byteTruncate b l = some (l.take b) := by
  intro b
  induction b with
  | zero =>
    intro l _ _
    simp [byteTruncate]
  | succ b ih =>
    intro l hascii hlen
    cases l with
    | nil => simp at hlen
    | cons c cs =>
      have hc : c.utf8Size = 1 := hascii c (List.mem_cons_self c cs)
      have hcs : ∀ x ∈ cs, x.utf8Size = 1 :=
        fun x hx => hascii x (List.mem_cons_of_mem _ hx)
      simp only [List.length_cons] at hlen
      simp only [byteTruncate, hc, if_pos (by omega : (1 : Nat) ≤ b + 1)]
      rw [show b + 1 - 1 = b by omega, ih cs hcs (by omega)]
      simp [List.take]

/-- On an all-ASCII character list the UTF-8 byte length is the character
count. -/
theorem utf8Len_ascii :
    ∀ l : List Char, (∀ c ∈ l, c.utf8Size = 1) → utf8Len l = l.length := by
  intro l
  induction l with
  | nil => simp [utf8Len]
  | cons c cs ih =>
    intro h
    have hc : c.utf8Size = 1 := h c (List.mem_cons_self c cs)
    have hcs := fun x hx => h x (List.mem_cons_of_mem _ hx)
    have ih2 := ih hcs
    simp [utf8Len, hc] at ih2 ⊢
    omega

theorem seqCombine_assoc (a b c : Outcome ((Nat × Nat) × List String)) :
    seqCombine (seqCombine a b) c = seqCombine a (seqCombine b c) := by
  rcases a with ⟨⟨⟨a1, a2⟩, ga⟩⟩ | _ | _ <;>
    rcases b with ⟨⟨⟨b1, b2⟩, gb⟩⟩ | _ | _ <;>
      rcases c with ⟨⟨⟨c1, c2⟩, gc⟩⟩ | _ | _ <;>
        simp [seqCombine, addPair]
  all_goals omega

/-! ## Claim theorems -/

/-- C4: In the Sequential Walker `linecount`, a directory-read failure at
the root returns an error to the caller; a read failure on a descendant
directory is non-fatal: the error is logged to the diagnostic stream
together with the failing path, that subtree contributes (0, 0), and
traversal of the remaining sibling entries continues (the listing around
the failing entry is processed exactly as it would be with the failing
entry contributing nothing but its diagnostic line). -/
theorem claim_C4 :
    (∀ (n : String) (bt : Bool), linecount (.badDir n) bt = .err)
    ∧ (∀ (bt : Bool) (n : String),
        linecountEntries bt [FsEntry.badDir n] = .ok ((0, 0), [n]))
    ∧ (∀ (bt : Bool) (nm n : String) (pre suf : List FsEntry),
        linecount (.dir nm (pre ++ FsEntry.badDir n :: suf)) bt
          = seqCombine (linecountEntries bt pre)
              (seqCombine (.ok ((0, 0), [n])) (linecountEntries bt suf))) := by
  refine ⟨?_, ?_, ?_⟩
  · intro n bt
    simp [linecount]
  · intro bt n
    simp [linecountEntries]
  · intro bt nm n pre suf
    simp only [linecount]
    rw [show FsEntry.badDir n :: suf = [FsEntry.badDir n] ++ suf from rfl,
      ← List.append_assoc, linecountEntries_append, linecountEntries_append,
      seqCombine_assoc]
    simp [linecountEntries]

/-- C5 counterexample: the claim predicts `format_byte_count 1500 =
"1.5 KB"`, but the source's integer-division guard `1500 / 1000 > 1` is
false, so the count falls through to the byte branch. -/
theorem claim_C5_cex :
    format_byte_count 1500 = "1500 B" ∧ "1500 B" ≠ "1.5 KB" := by
  constructor
  · decide
  · decide

/-- C5 (amended): `format_byte_count` maps 999 to "999 B", 1000 to
"1000 B", 2000000 to "2 MB", but 1500 to "1500 B"; in general the
next-larger unit is used exactly when the count divided by that unit in
integer arithmetic is strictly more than 1, i.e. when the count is at
least twice the unit — not when it merely exceeds one unit. -/
theorem claim_C5_amended :
    format_byte_count 999 = "999 B" ∧ format_byte_count 1000 = "1000 B"
    ∧ format_byte_count 1500 = "1500 B" ∧ format_byte_count 2000000 = "2 MB"
    ∧ ∀ n : Nat,
        (2000000000 ≤ n → format_byte_count n = fmtScaled n 9 ++ " GB")
        ∧ (2000000 ≤ n ∧ n < 2000000000 →
            format_byte_count n = fmtScaled n 6 ++ " MB")
        ∧ (2000 ≤ n ∧ n < 2000000 → format_byte_count n = fmtScaled n 3 ++ " KB")
        ∧ (n < 2000 → format_byte_count n = natStr n ++ " B") := by
  refine ⟨by decide, by decide, by decide, by decide, ?_⟩
  intro n
  refine ⟨?_, ?_, ?_, ?_⟩
  · intro h
    rw [format_byte_count, if_pos (by omega)]
  · rintro ⟨h1, h2⟩
    rw [format_byte_count, if_neg (by omega), if_pos (by omega)]
  · rintro ⟨h1, h2⟩
    rw [format_byte_count, if_neg (by omega), if_neg (by omega), if_pos (by omega)]
  · intro h
    rw [format_byte_count, if_neg (by omega), if_neg (by omega), if_neg (by omega)]

/-- C5 witness: the amended general clause applied at 5000 bytes. -/
theorem claim_C5_witness : format_byte_count 5000 = "5 KB" := by
  have h := (claim_C5_amended.2.2.2.2 5000).2.2.1 ⟨by omega, by omega⟩
  rw [h]
  decide

/-- C6: `content_type` checks extension-based CODE first, then MEDIA, then
EXECUTABLE (executable extension OR executable-permission bit set AND not
a text extension), then TEXT, then the exact names; consequently `Makefile`
with no extension classifies as MAKEFILE, `script.sh` with the executable
bit classifies as EXECUTABLE, and `notes.txt` with the executable bit
classifies as TEXT. -/
theorem claim_C6 :
    (∀ (name : String) (bit : Bool),
      (code_extensions.contains ((rustExtension name).getD "") = true →
        content_type name bit = .CODE)
      ∧ (code_extensions.contains ((rustExtension name).getD "") = false →
          media_extensions.contains ((rustExtension name).getD "") = true →
          content_type name bit = .MEDIA)
      ∧ (code_extensions.contains ((rustExtension name).getD "") = false →
          media_extensions.contains ((rustExtension name).getD "") = false →
          (executable_extensions.contains ((rustExtension name).getD "") = true
            ∨ (bit = true ∧
                text_extensions.contains ((rustExtension name).getD "") = false)) →
          content_type name bit = .EXECUTABLE)
      ∧ (code_extensions.contains ((rustExtension name).getD "") = false →
          media_extensions.contains ((rustExtension name).getD "") = false →
          executable_extensions.contains ((rustExtension name).getD "") = false →
          text_extensions.contains ((rustExtension name).getD "") = true →
          content_type name bit = .TEXT))
    ∧ content_type "Makefile" false = .MAKEFILE
    ∧ content_type "script.sh" true = .EXECUTABLE
    ∧ content_type "notes.txt" true = .TEXT := by
  refine ⟨fun name bit => ⟨?_, ?_, ?_, ?_⟩, by decide, by decide, by decide⟩
  · intro h1
    simp at h1
    simp [content_type, h1]
  · intro h1 h2
    simp at h1 h2
    simp [content_type, h1, h2]
  · intro h1 h2 h3
    simp at h1 h2
    rcases h3 with h3 | ⟨hb, ht⟩
    · simp at h3
      simp [content_type, h1, h2, h3]
    · simp at ht
      simp [content_type, h1, h2, hb, ht]
  · intro h1 h2 h3 h4
    simp at h1 h2 h3 h4
    simp [content_type, h1, h2, h3, h4]

/-- C6 witness: the precedence clauses applied at concrete names. -/
theorem claim_C6_witness :
    content_type "main.rs" false = .CODE
    ∧ content_type "photo.png" false = .MEDIA
    ∧ content_type "run.sh" false = .EXECUTABLE
    ∧ content_type "story.txt" true = .TEXT :=
  ⟨(claim_C6.1 "main.rs" false).1 (by decide),
    (claim_C6.1 "photo.png" false).2.1 (by decide) (by decide),
    (claim_C6.1 "run.sh" false).2.2.1 (by decide) (by decide) (Or.inl (by decide)),
    (claim_C6.1 "story.txt" true).2.2.2 (by decide) (by decide) (by decide)
      (by decide)⟩

/-- C7 counterexample: the claim says `--display` and `--test-async` select
the same traversal strategy (the Concurrent Visual Walker); in the source
`main` dispatches `--display` to `linecount_display` — the sequential,
single-threaded visual walker — and only `--test-async` to the concurrent
`linecount_visual_async`. -/
theorem claim_C7_cex :
    dispatch false true = Strategy.displayWalker
    ∧ dispatch true false = Strategy.visualAsyncWalker
    ∧ Strategy.displayWalker ≠ Strategy.visualAsyncWalker := by
  refine ⟨rfl, rfl, ?_⟩
  decide

/-- C7 (amended): `--test-async` selects the Concurrent Visual Walker
`linecount_visual_async` (and wins when both flags are given), `--display`
selects the sequential visual walker `linecount_display`, and no strategy
flag selects the Concurrent Aggregator `linecount_async`; for every tree
the two visual walkers produce the same (lines, bytes) totals outcome. -/
theorem claim_C7_amended :
    dispatch true false = Strategy.visualAsyncWalker
    ∧ dispatch true true = Strategy.visualAsyncWalker
    ∧ dispatch false true = Strategy.displayWalker
    ∧ dispatch false false = Strategy.aggregator
    ∧ ∀ e : FsEntry,
        runStrategy .displayWalker e = runStrategy .visualAsyncWalker e := by
  refine ⟨rfl, rfl, rfl, rfl, ?_⟩
  intro e
  simp only [runStrategy]
  exact display_visual_totals (sizeOf e) e le_rfl 0

/-- C9: with the byte-counting toggle off, the Sequential Walker returns
the same outcome as with it on, with the same lines component and the same
diagnostics, and a bytes component of exactly 0. -/
theorem claim_C9 :
    ∀ e : FsEntry,
      linecount e false
        = match linecount e true with
          | .ok ((a, _), logs) => .ok ((a, 0), logs)
          | o => o := by
  intro e
  cases e with
  | dir nm entries =>
    simp only [linecount]
    exact linecountEntries_toggle entries
  | file n c => simp [linecount]
  | badFile n => simp [linecount]
  | badDir n => simp [linecount]

/-- C10 counterexample: a 61-byte filename whose 60th byte offset falls
inside a two-byte character; its byte length exceeds the render limit but
the byte slice `[..60]` does not fall on a character boundary, so the
truncation panics (`renderName` has no value). -/
theorem claim_C10_cex :
    utf8Len (String.mk (List.replicate 59 'a' ++ ['é'])).data > FILENAME_RENDER_LIMIT
    ∧ renderName (String.mk (List.replicate 59 'a' ++ ['é'])) = none := by
  constructor
  · decide
  · decide

/-- C10 (amended): for every filename longer than 60 BYTES all of whose
characters are single-byte (ASCII), the rendered name is the first 60
bytes of the name followed by "..."; when byte offset 60 falls inside a
multi-byte character the slice `&filename[..60]` panics instead (the
counterexample), so the operation is well-defined exactly on
character-boundary names, not for every filename. -/
theorem claim_C10_amended :
    ∀ name : String, (∀ c ∈ name.data, c.utf8Size = 1) →
      utf8Len name.data > FILENAME_RENDER_LIMIT →
      renderName name
        = some (String.mk (name.data.take FILENAME_RENDER_LIMIT) ++ "...") := by
  intro name hascii hlen
  rw [renderName, if_pos hlen]
  rw [byteTruncate_ascii _ _ hascii
    (by rw [← utf8Len_ascii _ hascii]; omega)]
  simp

/-- C10 witness: the amended claim applied to a 61-character ASCII name. -/
theorem claim_C10_witness :
    renderName (String.mk (List.replicate 61 'a'))
      = some (String.mk (List.replicate 60 'a') ++ "...") := by
  have h := claim_C10_amended (String.mk (List.replicate 61 'a'))
    (by decide) (by decide)
  rw [h]
  decide

/-- C1 counterexample: a fully readable tree (no permission or read errors
anywhere) containing one file whose 61-byte name splits a two-byte
character at byte offset 60.  The Sequential Walker and the Concurrent
Aggregator return (1, 2), but the Concurrent Visual Walker panics in its
name-truncation slice and returns no total at all, so the three strategies
do not all return the identical (lines, bytes) pair. -/
theorem claim_C1_cex :
    linecount (.dir "root"
        [.file "aaaaaaaaaaaaaaaaaaaaaaaaaaaaaaaaaaaaaaaaaaaaaaaaaaaaaaaaaaaé"
          ['x', '\n']]) true
      = .ok ((1, 2), [])
    ∧ linecount_async (.dir "root"
        [.file "aaaaaaaaaaaaaaaaaaaaaaaaaaaaaaaaaaaaaaaaaaaaaaaaaaaaaaaaaaaé"
          ['x', '\n']])
      = .ok (1, 2)
    ∧ linecount_visual_async (.dir "root"
        [.file "aaaaaaaaaaaaaaaaaaaaaaaaaaaaaaaaaaaaaaaaaaaaaaaaaaaaaaaaaaaé"
          ['x', '\n']])
      = .panic
    ∧ (Outcome.panic ≠ (Outcome.ok (1, 2) : Outcome (Nat × Nat))) := by
  refine ⟨?_, ?_, ?_, by decide⟩
  · simp [linecount, linecountEntries, linesCount, utf8Len]
    decide
  · simp [linecount_async, asyncList, linesCount, utf8Len]
    decide
  · have hrn : renderName
        "aaaaaaaaaaaaaaaaaaaaaaaaaaaaaaaaaaaaaaaaaaaaaaaaaaaaaaaaaaaé" = none := by
      decide
    simp [linecount_visual_async, visualList, sortEntries, insertByName,
      List.filter, FsEntry.isFile, hrn]

/-- C1 (amended): for every fixed, static, fully readable directory tree
all of whose file names survive the 60-byte truncation (in particular any
tree with names of at most 60 bytes), the Sequential Walker with byte
counting enabled, the Concurrent Aggregator, and the Concurrent Visual
Walker return the identical (lines, bytes) total pair. -/
theorem claim_C1 :
    ∀ (nm : String) (entries : List FsEntry),
      allReadableList entries = true → namesRenderableList entries = true →
      ∃ p, linecount (.dir nm entries) true = .ok (p, [])
        ∧ linecount_async (.dir nm entries) = .ok p
        ∧ linecount_visual_async (.dir nm entries) = .ok p := by
  intro nm entries hr hn
  refine ⟨totalList entries, ?_, ?_, ?_⟩
  · have h := linecountEntries_readable true entries hr
    simp only [Bool.cond_true] at h
    simpa [linecount] using h
  · simp only [linecount_async]
    exact asyncList_readable entries hr
  · exact visual_readable entries hr hn nm

/-- C1 witness: the amended equivalence at the spec's concrete scenario
tree. -/
theorem claim_C1_witness :
    ∃ p, linecount (.dir "root"
          [.file "a.txt" "line1\nline2\n".data, .dir "sub" []]) true = .ok (p, [])
      ∧ linecount_async (.dir "root"
          [.file "a.txt" "line1\nline2\n".data, .dir "sub" []]) = .ok p
      ∧ linecount_visual_async (.dir "root"
          [.file "a.txt" "line1\nline2\n".data, .dir "sub" []]) = .ok p :=
  claim_C1 "root" [.file "a.txt" "line1\nline2\n".data, .dir "sub" []]
    (by decide) (by decide)

/-- C2: on fully readable trees with renderable names, every traversal
strategy returns the specification total `totalList`; `totalList` is
literally the sum over the direct children of their totals, with a file's
total being (count of newline-delimited segments of its decoded content,
byte length of that decoded content) and an empty directory's total
(0, 0) — the additivity invariant. -/
theorem claim_C2 :
    (∀ (nm : String) (entries : List FsEntry),
      allReadableList entries = true → namesRenderableList entries = true →
        linecount (.dir nm entries) true = .ok (totalList entries, [])
        ∧ linecount_async (.dir nm entries) = .ok (totalList entries)
        ∧ linecount_visual_async (.dir nm entries) = .ok (totalList entries)
        ∧ totalsOf (linecount_display (.dir nm entries) 0) = .ok (totalList entries))
    ∧ (∀ entries : List FsEntry,
        totalList entries = entries.foldr (fun e acc => addPair (total e) acc) (0, 0))
    ∧ (∀ (n : String) (c : List Char), total (.file n c) = (linesCount c, utf8Len c))
    ∧ (∀ nm : String, total (.dir nm []) = (0, 0)) := by
  refine ⟨?_, ?_, fun n c => by simp [total], fun nm => by simp [total, totalList]⟩
  · intro nm entries hr hn
    refine ⟨?_, ?_, ?_, ?_⟩
    · have h := linecountEntries_readable true entries hr
      simp only [Bool.cond_true] at h
      simpa [linecount] using h
    · simp only [linecount_async]
      exact asyncList_readable entries hr
    · exact visual_readable entries hr hn nm
    · rw [display_ok_of_readable (sizeOf entries) entries le_rfl hr hn nm 0]
      simp [totalsOf]
  · intro entries
    induction entries with
    | nil => simp [totalList]
    | cons e rest ih => simp [totalList, ih]

/-- C2 witness: the spec's scenario — a root with one file `a.txt` holding
"line1\nline2\n" and one empty subdirectory — totals (2, 12) under every
strategy. -/
theorem claim_C2_witness :
    linecount (.dir "root" [.file "a.txt" "line1\nline2\n".data, .dir "sub" []]) true
      = .ok ((2, 12), [])
    ∧ linecount_async (.dir "root"
        [.file "a.txt" "line1\nline2\n".data, .dir "sub" []]) = .ok (2, 12)
    ∧ linecount_visual_async (.dir "root"
        [.file "a.txt" "line1\nline2\n".data, .dir "sub" []]) = .ok (2, 12)
    ∧ totalsOf (linecount_display (.dir "root"
        [.file "a.txt" "line1\nline2\n".data, .dir "sub" []]) 0) = .ok (2, 12) := by
  have h := claim_C2.1 "root" [.file "a.txt" "line1\nline2\n".data, .dir "sub" []]
    (by decide) (by decide)
  have ht : totalList [.file "a.txt" "line1\nline2\n".data, .dir "sub" []]
      = (2, 12) := by decide
  rw [ht] at h
  exact h

/-- C3 counterexample: a tree with one readable file (1 line, 2 bytes) and
one unlistable subdirectory.  The claim predicts that both concurrent
strategies silently omit the failing subtree and return (1, 2); in the
source the child task's `read_dir(..).expect(..)` panics and
`handle.join().unwrap()` re-raises the panic in the parent, so both
concurrent strategies panic and return no total at all. -/
theorem claim_C3_cex :
    linecount_async (.dir "root" [.file "a.txt" ['x', '\n'], .badDir "locked"])
      = .panic
    ∧ linecount_visual_async (.dir "root" [.file "a.txt" ['x', '\n'], .badDir "locked"])
      = .panic
    ∧ (Outcome.panic ≠ (Outcome.ok (1, 2) : Outcome (Nat × Nat))) := by
  refine ⟨?_, ?_, by decide⟩
  · simp [linecount_async, asyncList, linesCount, utf8Len]
  · have hrn : renderName "a.txt" = some "a.txt" := by decide
    simp [linecount_visual_async, visualList, sortEntries, insertByName,
      List.filter, FsEntry.isFile, hrn]

/-- C3 (amended): in the concurrent strategies, a descendant directory that
cannot be listed makes the spawned task panic, and `handle.join().unwrap()`
propagates the panic, aborting the whole traversal rather than returning a
partial total (whenever no unreadable sibling file aborts the parent's
listing with an error before the join barrier); what IS silently dropped,
with no diagnostic, is a spawned subtree whose recursive call returns an
error — e.g. a subdirectory containing an unreadable file — while the rest
of the traversal completes, shown for the Concurrent Aggregator. -/
theorem claim_C3_amended :
    (∀ (nm n : String) (entries : List FsEntry), FsEntry.badDir n ∈ entries →
      noDirectBadFile entries = true →
      linecount_async (.dir nm entries) = .panic
      ∧ linecount_visual_async (.dir nm entries) = .panic)
    ∧ (∀ (nm m : String) (pre suf sub : List FsEntry), asyncList sub = .err →
        linecount_async (.dir nm (pre ++ FsEntry.dir m sub :: suf))
          = linecount_async (.dir nm (pre ++ suf))) := by
  constructor
  · intro nm n entries hmem hnb
    constructor
    · simp only [linecount_async]
      exact asyncList_panic_of_badDir entries n hmem hnb
    · simp only [linecount_visual_async]
      apply visualList_panic_of_badDir _ n
      · exact List.mem_append_right _
          (mem_sortEntries.mpr (List.mem_filter.mpr ⟨hmem, by simp [FsEntry.isFile]⟩))
      · rw [noDirectBadFile, List.all_eq_true]
        intro e he
        have hent : e ∈ entries := by
          rcases List.mem_append.mp he with h | h
          · exact (List.mem_filter.mp (mem_sortEntries.mp h)).1
          · exact (List.mem_filter.mp (mem_sortEntries.mp h)).1
        rw [noDirectBadFile, List.all_eq_true] at hnb
        exact hnb e hent
  · intro nm m pre suf sub herr
    simp only [linecount_async]
    exact asyncList_drop_err pre suf m sub herr

/-- C3 witness: the amended behaviors at concrete trees — an unlistable
child directory panics both concurrent walkers, and a child whose subtree
errs (an unreadable file inside) is dropped as if absent. -/
theorem claim_C3_witness :
    linecount_async (.dir "root" [.badDir "locked"]) = .panic
    ∧ linecount_visual_async (.dir "root" [.badDir "locked"]) = .panic
    ∧ linecount_async (.dir "root" ([] ++ FsEntry.dir "d" [.badFile "b"] :: []))
      = linecount_async (.dir "root" ([] ++ [])) :=
  ⟨(claim_C3_amended.1 "root" "locked" [.badDir "locked"]
      (List.mem_singleton.mpr rfl) (by decide)).1,
    (claim_C3_amended.1 "root" "locked" [.badDir "locked"]
      (List.mem_singleton.mpr rfl) (by decide)).2,
    claim_C3_amended.2 "root" "d" [] [] [.badFile "b"] (by simp [asyncList])⟩

/-- C8: on a fully readable tree with renderable names, the visual walker's
rendering of a directory is its header line, then all its files in
lexicographically sorted order — connector `├` on every file except the
last, which gets `└` — then the recursive rendering of each subdirectory
in sorted order within the same pass, with the indentation amount
increased by 2 per level (`renderSpec` states exactly this shape). -/
theorem claim_C8 :
    ∀ (nm : String) (entries : List FsEntry) (ind : Nat),
      allReadableList entries = true → namesRenderableList entries = true →
      linecount_display (.dir nm entries) ind
        = .ok (totalList entries, renderSpec (.dir nm entries) ind) :=
  fun nm entries ind hr hn =>
    display_ok_of_readable (sizeOf entries) entries le_rfl hr hn nm ind

/-- C8 witness: the rendering refinement at a concrete two-level tree. -/
theorem claim_C8_witness :
    linecount_display (.dir "root" [.file "a.txt" ['x', '\n'],
        .dir "sub" [.file "b.txt" ['y', '\n']]]) 0
      = .ok ((2, 4),
          [.header 0 "root", .fileLine 0 '└' "a.txt" 1 2,
           .header 2 "sub", .fileLine 2 '└' "b.txt" 1 2]) := by
  have h := claim_C8 "root"
    [.file "a.txt" ['x', '\n'], .dir "sub" [.file "b.txt" ['y', '\n']]] 0
    (by decide) (by decide)
  rw [h]
  have ht : totalList [.file "a.txt" ['x', '\n'],
      .dir "sub" [.file "b.txt" ['y', '\n']]] = (2, 4) := by decide
  rw [ht]
  simp [renderSpec, renderFilesSpec, renderDirsSpec, sortEntries, insertByName,
    renderName, linesCount, utf8Len, byteTruncate, FILENAME_RENDER_LIMIT,
    FsEntry.isFile, List.filter]
  decide

end LC
